import Mathlib

/-!
Verification of the Cadence asynchronous control-flow engine against its
specification.  The repository ships only the engine's documentation
(README, release notes) and test files; the scheduler itself is not among
the provided sources, so every definition below is a shallow operational
model reconstructed from the specification's words (sections 2-4 and 7 of
the spec) and from the behaviour documented in the repository's README and
release notes.  Each definition's doc comment records which part of the
missing engine it models.
-/

namespace Cadence

/-- Modelled from the spec: JavaScript-style values flowing between steps.
The engine stores step results, arrays of gathered results and an explicit
"absent" marker, the undefined of JavaScript, used when a cell received no
argument.  The missing engine source manipulates plain JavaScript values;
this inductive is the shallow embedding of the value universe the claims
need. -/
inductive JVal where
  | absent
  | num (n : Int)
  | str (s : String)
  | arr (elems : List JVal)

mutual

/-- Decidable equality for values. -/
def JVal.decEq : (a b : JVal) → Decidable (a = b)
  | .absent, .absent => isTrue rfl
  | .num a, .num b =>
    if h : a = b then isTrue (by rw [h]) else isFalse (by intro hc; cases hc; exact h rfl)
  | .str a, .str b =>
    if h : a = b then isTrue (by rw [h]) else isFalse (by intro hc; cases hc; exact h rfl)
  | .arr xs, .arr ys =>
    match JVal.decEqs xs ys with
    | isTrue h => isTrue (by rw [h])
    | isFalse h => isFalse (by intro hc; cases hc; exact h rfl)
  | .absent, .num _ => isFalse (fun h => JVal.noConfusion h)
  | .absent, .str _ => isFalse (fun h => JVal.noConfusion h)
  | .absent, .arr _ => isFalse (fun h => JVal.noConfusion h)
  | .num _, .absent => isFalse (fun h => JVal.noConfusion h)
  | .num _, .str _ => isFalse (fun h => JVal.noConfusion h)
  | .num _, .arr _ => isFalse (fun h => JVal.noConfusion h)
  | .str _, .absent => isFalse (fun h => JVal.noConfusion h)
  | .str _, .num _ => isFalse (fun h => JVal.noConfusion h)
  | .str _, .arr _ => isFalse (fun h => JVal.noConfusion h)
  | .arr _, .absent => isFalse (fun h => JVal.noConfusion h)
  | .arr _, .num _ => isFalse (fun h => JVal.noConfusion h)
  | .arr _, .str _ => isFalse (fun h => JVal.noConfusion h)

/-- Decidable equality for lists of values. -/
def JVal.decEqs : (xs ys : List JVal) → Decidable (xs = ys)
  | [], [] => isTrue rfl
  | [], _ :: _ => isFalse (fun h => List.noConfusion h)
  | _ :: _, [] => isFalse (fun h => List.noConfusion h)
  | x :: xs, y :: ys =>
    match JVal.decEq x y with
    | isTrue h1 =>
      match JVal.decEqs xs ys with
      | isTrue h2 => isTrue (by rw [h1, h2])
      | isFalse h2 => isFalse (by intro hc; cases hc; exact h2 rfl)
    | isFalse h1 => isFalse (by intro hc; cases hc; exact h1 rfl)

end

instance : DecidableEq JVal := JVal.decEq

/-- Modelled from the spec: an error value.  Section 4.4 says a filter "is a
pattern tested against each error's categorical code (falling back to its
message when no code exists)", so an error carries an optional code and a
message. -/
structure Err where
  code : Option String
  message : String
  deriving DecidableEq

/-- Modelled from the spec: the completion of one handle.  Section 6: the
handle completion contract is an error-first callback; a non-null error
marks branch failure, otherwise the value is stored. -/
inductive Completion where
  | ok (v : JVal)
  | fail (e : Err)
  deriving DecidableEq

/-- Modelled from the spec: a Step Frame (section 3): pending-handle count,
ordered result slots (one per handle, in declaration order), and the
ErrorSet, an ordered-by-arrival list of captured errors. -/
structure Frame where
  slots : List (Option JVal)
  errors : List Err
  pending : Nat
  deriving DecidableEq

/-- Modelled from the spec: the frame created when a step declares k
handles: k empty slots, no errors, k pending handles. -/
def Frame.init (k : Nat) : Frame :=
  { slots := List.replicate k none, errors := [], pending := k }

/-- Modelled from the spec: resolving one handle (section 4.2).  A non-null
error appends to the frame's ErrorSet in arrival order; otherwise the value
is stored at the slot the handle was bound to at creation.  Either way one
fewer handle is pending. -/
def Frame.resolve (f : Frame) (i : Nat) (c : Completion) : Frame :=
  match c with
  | .ok v => { f with slots := f.slots.set i (some v), pending := f.pending - 1 }
  | .fail e => { f with errors := f.errors ++ [e], pending := f.pending - 1 }

/-- Modelled from the spec: processing a sequence of handle completions in
arrival order.  The list `events` is the completion order, which is in
general a permutation of the declaration order. -/
def Frame.run (f : Frame) (events : List (Nat × Completion)) : Frame :=
  events.foldl (fun g ev => g.resolve ev.1 ev.2) f

/-- Modelled from the spec: delivery at the end of a step with no catch
branch (sections 4.3, 4.4, 7).  Nothing is delivered while handles are
still pending; once the frame is drained, a non-empty ErrorSet delivers
exactly its first-arrival error (sibling successes are discarded), and an
empty ErrorSet delivers the slot values in declaration order. -/
def Frame.deliver (f : Frame) : Option (Err ⊕ List JVal) :=
  if f.pending ≠ 0 then none
  else match f.errors with
    | [] => some (Sum.inr (f.slots.map (fun s => s.getD JVal.absent)))
    | e :: _ => some (Sum.inl e)

/-- Modelled from the spec: generic slot filling.  Handles are bound to
slot indices at creation; completions arrive in arbitrary order and each
stores its payload at its own bound index. -/
def fill (s : List (Option α)) (events : List (Nat × α)) : List (Option α) :=
  events.foldl (fun t ev => t.set ev.1 (some ev.2)) s

/-- Selects the successful completions, keeping slot indices. -/
def okOf (ev : Nat × Completion) : Option (Nat × JVal) :=
  match ev.2 with
  | .ok v => some (ev.1, v)
  | .fail _ => none

/-- Selects the failed completions, in arrival order. -/
def failOf (ev : Nat × Completion) : Option Err :=
  match ev.2 with
  | .ok _ => none
  | .fail e => some e

theorem fill_cons (s : List (Option α)) (ev : Nat × α) (rest : List (Nat × α)) :
    fill s (ev :: rest) = fill (s.set ev.1 (some ev.2)) rest := rfl

theorem run_cons (f : Frame) (ev : Nat × Completion) (rest : List (Nat × Completion)) :
    Frame.run f (ev :: rest) = Frame.run (f.resolve ev.1 ev.2) rest := rfl

theorem fill_length (s : List (Option α)) (events : List (Nat × α)) :
    (fill s events).length = s.length := by
  induction events generalizing s with
  | nil => rfl
  | cons ev rest ih => rw [fill_cons, ih, List.length_set]

theorem fill_getElem?_of_not_mem (s : List (Option α)) (events : List (Nat × α))
    (i : Nat) (h : i ∉ events.map Prod.fst) :
    (fill s events)[i]? = s[i]? := by
  induction events generalizing s with
  | nil => rfl
  | cons ev rest ih =>
    simp only [List.map_cons, List.mem_cons] at h
    push_neg at h
    rw [fill_cons, ih (s.set ev.1 (some ev.2)) h.2,
      List.getElem?_set_ne (fun hne => h.1 hne.symm)]

theorem fill_getElem?_of_mem (s : List (Option α)) (events : List (Nat × α))
    (i : Nat) (a : α) (hmem : (i, a) ∈ events)
    (hnodup : (events.map Prod.fst).Nodup) (hlt : i < s.length) :
    (fill s events)[i]? = some (some a) := by
  induction events generalizing s with
  | nil => exact absurd hmem (List.not_mem_nil _)
  | cons ev rest ih =>
    simp only [List.map_cons, List.nodup_cons] at hnodup
    rcases List.mem_cons.mp hmem with heq | hrest
    · have hev : ev = (i, a) := heq.symm
      subst hev
      rw [fill_cons]
      rw [fill_getElem?_of_not_mem (s.set i (some a)) rest i hnodup.1]
      exact List.getElem?_set_self (by simpa using hlt)
    · rw [fill_cons]
      exact ih (s.set ev.1 (some ev.2)) hrest hnodup.2 (by simpa using hlt)

theorem fill_perm_enum (xs : List α) (events : List (Nat × α))
    (hperm : events.Perm xs.enum) :
    fill (List.replicate xs.length none) events = xs.map some := by
  have hlen : (fill (List.replicate xs.length none) events).length = (xs.map some).length := by
    rw [fill_length, List.length_replicate, List.length_map]
  have hnodup : (events.map Prod.fst).Nodup := by
    have h1 : (events.map Prod.fst).Perm (xs.enum.map Prod.fst) := hperm.map Prod.fst
    have h2 : xs.enum.map Prod.fst = List.range' 0 xs.length := by
      rw [List.enum_eq_enumFrom, List.enumFrom_map_fst]
    exact (h1.nodup_iff).mpr (by rw [h2]; exact List.nodup_range' 0 xs.length)
  apply List.ext_getElem hlen
  intro i hi1 hi2
  have hi : i < xs.length := by simpa using hi2
  have hmem : (i, xs[i]) ∈ events := by
    refine hperm.mem_iff.mpr ?_
    refine List.getElem?_mem (l := xs.enum) (n := i) ?_
    rw [List.enum_eq_enumFrom, List.getElem?_enumFrom, List.getElem?_eq_getElem hi]
    simp
  have hsome : (fill (List.replicate xs.length none) events)[i]? = some (some xs[i]) :=
    fill_getElem?_of_mem (List.replicate xs.length none) events i xs[i] hmem hnodup
      (by simpa using hi)
  rw [List.getElem?_eq_getElem hi1] at hsome
  have h1 := Option.some.inj hsome
  rw [h1]
  simp [hi]

theorem frame_run_pending (f : Frame) (events : List (Nat × Completion)) :
    (Frame.run f events).pending = f.pending - events.length := by
  induction events generalizing f with
  | nil => rfl
  | cons ev rest ih =>
    rw [run_cons, ih]
    have hres : (f.resolve ev.1 ev.2).pending = f.pending - 1 := by
      cases hc : ev.2 <;> simp [Frame.resolve, hc]
    rw [hres, List.length_cons]
    omega

theorem frame_run_errors (f : Frame) (events : List (Nat × Completion)) :
    (Frame.run f events).errors = f.errors ++ events.filterMap failOf := by
  induction events generalizing f with
  | nil => simp [Frame.run]
  | cons ev rest ih =>
    rw [run_cons, ih]
    rcases ev with ⟨i, c⟩
    cases c with
    | ok v => simp [Frame.resolve, failOf, List.filterMap_cons]
    | fail e => simp [Frame.resolve, failOf, List.filterMap_cons]

theorem frame_run_slots (f : Frame) (events : List (Nat × Completion)) :
    (Frame.run f events).slots = fill f.slots (events.filterMap okOf) := by
  induction events generalizing f with
  | nil => rfl
  | cons ev rest ih =>
    rw [run_cons, ih]
    rcases ev with ⟨i, c⟩
    cases c with
    | ok v => simp [Frame.resolve, okOf, List.filterMap_cons, fill_cons]
    | fail e => simp [Frame.resolve, okOf, List.filterMap_cons]

theorem enumFrom_map_ok_filterMap_ok (vs : List JVal) (n : Nat) :
    ((vs.map Completion.ok).enumFrom n).filterMap okOf = vs.enumFrom n := by
  induction vs generalizing n with
  | nil => rfl
  | cons v rest ih =>
    simp [List.enumFrom, List.filterMap_cons, okOf, ih]

theorem enumFrom_map_ok_filterMap_fail (vs : List JVal) (n : Nat) :
    ((vs.map Completion.ok).enumFrom n).filterMap failOf = [] := by
  induction vs generalizing n with
  | nil => rfl
  | cons v rest ih =>
    simp [List.enumFrom, List.filterMap_cons, failOf, ih]

/-- The events of a step whose handles, declared in the order of `vs`, all
resolved successfully, listed in declaration order; an actual completion
order is any permutation of this list. -/
def allOkEvents (vs : List JVal) : List (Nat × Completion) :=
  (vs.map Completion.ok).enum

/-- C1: For every flow invocation and every step that creates k handles,
when all k handles have resolved successfully the next step receives
exactly k positional arguments, the i-th being the value delivered to the
i-th handle in creation (declaration) order, for every possible completion
order of the handles. -/
theorem subsequent_args_follow_declaration_order (vs : List JVal)
    (events : List (Nat × Completion)) (hperm : events.Perm (allOkEvents vs)) :
    (Frame.run (Frame.init vs.length) events).deliver = some (Sum.inr vs) := by
  have hlen : events.length = vs.length := by
    have hl := hperm.length_eq
    simpa [allOkEvents, List.enum_eq_enumFrom] using hl
  have hpend : (Frame.run (Frame.init vs.length) events).pending = 0 := by
    rw [frame_run_pending, hlen]
    simp [Frame.init]
  have herr : (Frame.run (Frame.init vs.length) events).errors = [] := by
    rw [frame_run_errors]
    have h1 : (events.filterMap failOf).Perm ((allOkEvents vs).filterMap failOf) :=
      hperm.filterMap failOf
    have h2 : (allOkEvents vs).filterMap failOf = [] := by
      simpa [allOkEvents, List.enum_eq_enumFrom] using enumFrom_map_ok_filterMap_fail vs 0
    rw [h2] at h1
    simpa [Frame.init] using h1.eq_nil
  have hslots : (Frame.run (Frame.init vs.length) events).slots = vs.map some := by
    rw [frame_run_slots]
    have h1 : (events.filterMap okOf).Perm ((allOkEvents vs).filterMap okOf) :=
      hperm.filterMap okOf
    have h2 : (allOkEvents vs).filterMap okOf = vs.enum := by
      simpa [allOkEvents, List.enum_eq_enumFrom] using enumFrom_map_ok_filterMap_ok vs 0
    rw [h2] at h1
    exact fill_perm_enum vs (events.filterMap okOf) h1
  rw [Frame.deliver, hpend, herr, hslots]
  simp [List.map_map, Function.comp_def]

/-- Witness for C1, mirroring the README's "Subsequent Arguments" example:
two handles are declared in order but complete in the reverse order; the
next step still receives the values in declaration order. -/
theorem subsequent_args_follow_declaration_order_witness :
    ([((1 : Nat), Completion.ok (JVal.num 2)), ((0 : Nat), Completion.ok (JVal.num 1))].Perm
        (allOkEvents [JVal.num 1, JVal.num 2])) ∧
    (Frame.run (Frame.init 2)
        [((1 : Nat), Completion.ok (JVal.num 2)), ((0 : Nat), Completion.ok (JVal.num 1))]).deliver =
      some (Sum.inr [JVal.num 1, JVal.num 2]) :=
  ⟨by decide, subsequent_args_follow_declaration_order [JVal.num 1, JVal.num 2] _ (by decide)⟩

/-- Modelled from the spec: the key a conditional-error filter is tested
against.  Section 4.4: the pattern is "tested against each error's
categorical code (falling back to its message when no code exists)". -/
def Err.testKey (e : Err) : String :=
  e.code.getD e.message

/-- Modelled from the spec: whether one error matches the filter pattern.
The pattern (a regular expression in the engine) is embedded as a boolean
predicate on strings. -/
def matchesFilter (p : String → Bool) (e : Err) : Bool :=
  p e.testKey

/-- Modelled from the spec: the decision the Error Aggregator takes for a
try/filter/catch step once its frame is drained (section 4.4). -/
inductive CatchOutcome where
  | success
  | runCatch (errs : List Err)
  | propagate (e : Err)
  deriving DecidableEq

/-- Modelled from the spec: the Error Aggregator for a try/filter/catch
step (section 4.4).  With an empty ErrorSet the catch branch is skipped and
the success path continues.  Otherwise the catch runs only if every error
in the set matches the filter; if any fails to match, the catch is skipped
and the first non-matching error in arrival order propagates. -/
def aggregate (p : String → Bool) (errs : List Err) : CatchOutcome :=
  if errs.isEmpty then .success
  else
    match errs.find? (fun e => !(matchesFilter p e)) with
    | none => .runCatch errs
    | some e => .propagate e

theorem aggregate_runCatch_iff (p : String → Bool) (errs : List Err) :
    aggregate p errs = CatchOutcome.runCatch errs ↔
      (errs ≠ [] ∧ ∀ e ∈ errs, matchesFilter p e = true) := by
  rcases herrs : errs with _ | ⟨e0, tail⟩
  · simp [aggregate]
  · rw [aggregate]
    simp only [List.isEmpty_cons, Bool.false_eq_true, if_false]
    rcases hf : (e0 :: tail).find? (fun e => !(matchesFilter p e)) with _ | e
    · simp only [List.find?_eq_none, Bool.not_eq_eq_eq_not, Bool.not_true] at hf
      constructor
      · intro _
        exact ⟨List.cons_ne_nil e0 tail, fun e he => by
          have := hf e he
          simpa using this⟩
      · intro _
        rfl
    · have he : matchesFilter p e = false := by
        have := List.find?_some hf
        simpa using this
      have hmem : e ∈ e0 :: tail := List.mem_of_find?_eq_some hf
      constructor
      · intro hc
        exact absurd hc (by simp)
      · intro ⟨_, hall⟩
        have := hall e hmem
        rw [he] at this
        exact absurd this (by simp)

theorem aggregate_propagate_iff (p : String → Bool) (errs : List Err) (e : Err) :
    aggregate p errs = CatchOutcome.propagate e ↔
      (matchesFilter p e = false ∧
        ∃ pre post, errs = pre ++ e :: post ∧ ∀ x ∈ pre, matchesFilter p x = true) := by
  have hfind : errs.find? (fun x => !(matchesFilter p x)) = some e ↔
      (matchesFilter p e = false ∧
        ∃ pre post, errs = pre ++ e :: post ∧ ∀ x ∈ pre, matchesFilter p x = true) := by
    rw [List.find?_eq_some]
    constructor
    · intro ⟨h1, pre, post, h2, h3⟩
      refine ⟨by simpa using h1, pre, post, h2, fun x hx => by
        have := h3 x hx
        simpa using this⟩
    · intro ⟨h1, pre, post, h2, h3⟩
      refine ⟨by simpa using h1, pre, post, h2, fun x hx => by
        have := h3 x hx
        simp [this]⟩
  rcases herrs : errs with _ | ⟨e0, tail⟩
  · simp only [aggregate, List.isEmpty_nil, if_true]
    constructor
    · intro hc
      exact absurd hc (by simp)
    · intro ⟨_, pre, post, h2, _⟩
      exact absurd h2 (by simp)
  · rw [aggregate]
    simp only [List.isEmpty_cons, Bool.false_eq_true, if_false]
    rw [herrs] at hfind
    rcases hf : (e0 :: tail).find? (fun x => !(matchesFilter p x)) with _ | e1
    · rw [hf] at hfind
      constructor
      · intro hc
        exact absurd hc (by simp)
      · intro hr
        exact absurd (hfind.mpr hr) (by simp)
    · rw [hf] at hfind
      constructor
      · intro hc
        have he1 : e1 = e := by
          have := CatchOutcome.propagate.inj hc
          exact this
        rw [he1] at hfind
        exact hfind.mp rfl
      · intro hr
        rw [Option.some.inj (hfind.mpr hr)]

/-- C2: For every try/filter/catch step whose try branch produced a
non-empty ErrorSet, the catch function runs if and only if every error in
the set matches the filter (tested against the error's code property when
it exists, otherwise against its message); when some error fails to match,
the catch is skipped and the first non-matching error in arrival order —
not necessarily the first error raised overall — becomes the step's
propagated error. -/
theorem catch_filter_semantics (p : String → Bool) (k : Nat)
    (events : List (Nat × Completion)) :
    ((Frame.run (Frame.init k) events).errors = events.filterMap failOf) ∧
    (aggregate p (Frame.run (Frame.init k) events).errors =
        CatchOutcome.runCatch (Frame.run (Frame.init k) events).errors ↔
      ((Frame.run (Frame.init k) events).errors ≠ [] ∧
        ∀ e ∈ (Frame.run (Frame.init k) events).errors, matchesFilter p e = true)) ∧
    (∀ e, aggregate p (Frame.run (Frame.init k) events).errors = CatchOutcome.propagate e ↔
      (matchesFilter p e = false ∧
        ∃ pre post, (Frame.run (Frame.init k) events).errors = pre ++ e :: post ∧
          ∀ x ∈ pre, matchesFilter p x = true)) ∧
    (∀ e : Err, matchesFilter p e = p (e.code.getD e.message)) := by
  refine ⟨?_, ?_, ?_, ?_⟩
  · rw [frame_run_errors]
    simp [Frame.init]
  · exact aggregate_runCatch_iff p _
  · intro e
    exact aggregate_propagate_iff p _ e
  · intro e
    rfl

/-- C4: For every step with no catch branch in which at least one handle
reports an error, the flow still waits for every remaining pending handle
of that step to resolve (no sibling is abandoned), discards the siblings'
successful results, and delivers exactly one error — the first by arrival
order — to the enclosing frame or the outermost done callback; the caller
never observes more than one error value or a mixed
partial-success-plus-error outcome. -/
theorem no_catch_drains_and_delivers_first_error (k : Nat)
    (events : List (Nat × Completion))
    (hidx : (events.map Prod.fst).Perm (List.range k))
    (hfail : events.filterMap failOf ≠ []) :
    (∀ pre, (∃ rest, pre ++ rest = events) → pre ≠ events →
      (Frame.run (Frame.init k) pre).deliver = none) ∧
    (Frame.run (Frame.init k) events).deliver =
      ((events.filterMap failOf).head?).map Sum.inl := by
  have hlen : events.length = k := by
    have h1 := hidx.length_eq
    simpa using h1
  constructor
  · intro pre ⟨rest, hsplit⟩ hne
    have hrest : rest ≠ [] := by
      intro hr
      rw [hr, List.append_nil] at hsplit
      exact hne hsplit
    have hlt : pre.length < k := by
      have : pre.length + rest.length = k := by
        rw [← hlen, ← hsplit, List.length_append]
      have : 0 < rest.length := List.length_pos.mpr hrest
      omega
    have hpend : (Frame.run (Frame.init k) pre).pending ≠ 0 := by
      rw [frame_run_pending]
      simp only [Frame.init]
      omega
    rw [Frame.deliver, if_pos hpend]
  · have hpend : (Frame.run (Frame.init k) events).pending = 0 := by
      rw [frame_run_pending, hlen]
      simp [Frame.init]
    have herr : (Frame.run (Frame.init k) events).errors = events.filterMap failOf := by
      rw [frame_run_errors]
      simp [Frame.init]
    rw [Frame.deliver, if_neg (by rw [hpend]; exact fun h => h rfl), herr]
    rcases hl : events.filterMap failOf with _ | ⟨e, tail⟩
    · exact absurd hl hfail
    · simp

/-- Witness for C4: two handles; the first completes successfully, the
second fails.  No strict prefix of the completion sequence delivers, and
the drained frame delivers exactly the single error while the sibling's
successful result is discarded. -/
theorem no_catch_drains_and_delivers_first_error_witness :
    (([((0 : Nat), Completion.ok (JVal.num 7)),
        ((1 : Nat), Completion.fail ⟨some "EACCES", "denied"⟩)].map Prod.fst).Perm
      (List.range 2)) ∧
    ([((0 : Nat), Completion.ok (JVal.num 7)),
        ((1 : Nat), Completion.fail ⟨some "EACCES", "denied"⟩)].filterMap failOf ≠ []) ∧
    ((∀ pre, (∃ rest, pre ++ rest = [((0 : Nat), Completion.ok (JVal.num 7)),
          ((1 : Nat), Completion.fail ⟨some "EACCES", "denied"⟩)]) →
        pre ≠ [((0 : Nat), Completion.ok (JVal.num 7)),
          ((1 : Nat), Completion.fail ⟨some "EACCES", "denied"⟩)] →
        (Frame.run (Frame.init 2) pre).deliver = none) ∧
      (Frame.run (Frame.init 2) [((0 : Nat), Completion.ok (JVal.num 7)),
          ((1 : Nat), Completion.fail ⟨some "EACCES", "denied"⟩)]).deliver =
        (([((0 : Nat), Completion.ok (JVal.num 7)),
          ((1 : Nat), Completion.fail ⟨some "EACCES", "denied"⟩)].filterMap failOf).head?).map
          Sum.inl) :=
  ⟨by decide, by decide,
    no_catch_drains_and_delivers_first_error 2 _ (by decide) (by decide)⟩

/-- Modelled from the spec: a synchronous throw in a step body is "captured
as an immediate branch failure" (section 4.1); a ThrownError is "treated
identically to a BranchError for that branch" (section 7).  The thrown
error is appended to the step's ErrorSet; a thrown JavaScript exception
carries a message and no categorical code. -/
def throwCapture (f : Frame) (m : String) : Frame :=
  { f with errors := f.errors ++ [{ code := none, message := m }] }

/-- C8: For every try-branch step, a synchronous throw of an error inside
the step body is captured into that step's ErrorSet and treated
identically — same catch routing, same propagation — to a handle being
invoked with a non-null error carrying the same message. -/
theorem sync_throw_identical_to_handle_error (m : String) (p : String → Bool) :
    ((throwCapture (Frame.init 0) m).errors =
      (Frame.run (Frame.init 1) [(0, Completion.fail ⟨none, m⟩)]).errors) ∧
    ((throwCapture (Frame.init 0) m).deliver =
      (Frame.run (Frame.init 1) [(0, Completion.fail ⟨none, m⟩)]).deliver) ∧
    (aggregate p (throwCapture (Frame.init 0) m).errors =
      aggregate p (Frame.run (Frame.init 1) [(0, Completion.fail ⟨none, m⟩)]).errors) :=
  ⟨rfl, rfl, rfl⟩

/-- Modelled from the spec (section 4.1): a step may "return a scalar
(becomes the sole next-step argument)" or "return a sequence (its elements
spread as next-step arguments)".  spread converts a synchronous return
value into the next step's positional argument list. -/
def spread (v : JVal) : List JVal :=
  match v with
  | .arr xs => xs
  | v => [v]

/-- Modelled from the spec (sections 4.1, 8): a flow of purely synchronous
steps that create no handles: each step receives the previous step's
positional arguments and returns a value, whose spread becomes the next
step's arguments; the final step's spread value is the flow's result
list. -/
def runSyncFlow (steps : List (List JVal → JVal)) (args : List JVal) : List JVal :=
  match steps with
  | [] => args
  | f :: rest => runSyncFlow rest (spread (f args))

/-- Modelled from the spec (section 6): the compiled flow calls
done(error, ...results) error-first; a fully synchronous flow finishes with
a null error and the final step's results. -/
def doneResult (steps : List (List JVal → JVal)) (args : List JVal) :
    Option Err × List JVal :=
  (none, runSyncFlow steps args)

/-- C5: For every step function that returns synchronously without
creating handles, a scalar return value becomes the sole argument of the
next step (or the sole result delivered to done for the final step), and a
returned array's elements are spread as the next step's positional
arguments; in particular a single-step flow delivers the step's return
value unchanged to done. -/
theorem sync_return_spread_semantics (f : List JVal → JVal)
    (rest : List (List JVal → JVal)) (args : List JVal) :
    (runSyncFlow (f :: rest) args = runSyncFlow rest (spread (f args))) ∧
    (∀ n : Int, spread (JVal.num n) = [JVal.num n]) ∧
    (∀ s : String, spread (JVal.str s) = [JVal.str s]) ∧
    (spread JVal.absent = [JVal.absent]) ∧
    (∀ xs, spread (JVal.arr xs) = xs) ∧
    (runSyncFlow [f] args = spread (f args)) ∧
    (doneResult [f] args = (none, spread (f args))) :=
  ⟨rfl, fun _ => rfl, fun _ => rfl, rfl, fun _ => rfl, rfl, rfl⟩

/-- Modelled from the spec (section 4.5): the iterations of an each-loop,
in order.  The body receives the loop state, the current element and the
zero-based iteration index, and yields the new state together with the
iteration's terminal result. -/
def eachIter (body : σ → JVal → Nat → σ × JVal) : σ → Nat → List JVal → List JVal
  | _, _, [] => []
  | s, i, x :: xs =>
    let r := body s x i
    r.2 :: eachIter body r.1 (i + 1) xs

/-- Modelled from the spec (section 4.5): gathered mode — "each iteration's
terminal result is appended to a result array delivered as the loop's
overall output". -/
def eachGathered (body : σ → JVal → Nat → σ × JVal) (s : σ) (items : List JVal) : JVal :=
  .arr (eachIter body s 0 items)

/-- Modelled from the spec: a plain, non-gathered ("reduced") each-loop:
the loop's overall result is the final iteration's terminal result, since
the results of a flow's final step are the results of the flow. -/
def eachReduced (body : σ → JVal → Nat → σ × JVal) (s : σ) (items : List JVal) : JVal :=
  (eachIter body s 0 items).getLastD .absent

/-- The running-sum loop body of the README's loop examples: adds the
element to the running sum and passes the new sum to the iteration's
terminal callback. -/
def sumBody : Int → JVal → Nat → Int × JVal :=
  fun s v _ =>
    match v with
    | .num n => (s + n, .num (s + n))
    | _ => (s, .absent)

/-- Counterexample to C6 as stated: a gathered each-loop over [1,2,3,4]
whose body accumulates a running sum delivers the gather array
[1,3,6,10] as its overall result, not the scalar 10. -/
theorem gathered_each_sum_counterexample :
    eachGathered sumBody 0 [JVal.num 1, JVal.num 2, JVal.num 3, JVal.num 4] =
      JVal.arr [JVal.num 1, JVal.num 3, JVal.num 6, JVal.num 10] ∧
    eachGathered sumBody 0 [JVal.num 1, JVal.num 2, JVal.num 3, JVal.num 4] ≠
      JVal.num 10 := by
  constructor
  · decide
  · decide

/-- C6 amended: a gathered each-loop over [1,2,3,4] accumulating a running
sum yields the gather array [1,3,6,10] as the loop's overall result; the
scalar 10 is the result of the plain (reduced) each-loop, and the final
element of the gather array. -/
theorem gathered_each_sum_amended :
    eachGathered sumBody 0 [JVal.num 1, JVal.num 2, JVal.num 3, JVal.num 4] =
      JVal.arr [JVal.num 1, JVal.num 3, JVal.num 6, JVal.num 10] ∧
    eachReduced sumBody 0 [JVal.num 1, JVal.num 2, JVal.num 3, JVal.num 4] =
      JVal.num 10 := by
  constructor
  · decide
  · decide

/-- Modelled from the spec and the release notes ("Arrays As You Go"): the
argument lists received by a dynamic-array group's handles, one entry per
creation index, built from completion events that arrive in arbitrary
order; each event carries the index of the handle and the arguments given
to its callback. -/
def groupReceived (n : Nat) (events : List (Nat × List JVal)) : List (List JVal) :=
  (fill (List.replicate n none) events).map (fun o => o.getD [])

/-- Modelled from the spec (section 3): the reconciled arity of a dynamic
array group — "Dynamic array arity for group index i equals the number of
arguments the i-th handle received; ... differing arities across indices
use the maximum observed". -/
def groupArity (received : List (List JVal)) : Nat :=
  received.foldr (fun a m => max a.length m) 0

/-- Modelled from the spec (sections 3, 8, 9): assembly of a dynamic-array
group.  Each index yields one row padded to the group arity with explicit
absent markers — "missing trailing values are explicit absent markers,
never omitted indices" — and "a dynamic-array group with zero handle
creations yields one row of arity 1 with an explicit absent value, never a
zero-length result". -/
def assembleGroup (received : List (List JVal)) : List (List JVal) :=
  if received.isEmpty then [[JVal.absent]]
  else received.map
    (fun a => a ++ List.replicate (groupArity received - a.length) JVal.absent)

theorem groupArity_cons (b : List JVal) (rest : List (List JVal)) :
    groupArity (b :: rest) = max b.length (groupArity rest) := rfl

theorem groupArity_le (received : List (List JVal)) (a : List JVal)
    (ha : a ∈ received) : a.length ≤ groupArity received := by
  induction received with
  | nil => cases ha
  | cons b rest ih =>
    rw [groupArity_cons]
    rcases List.mem_cons.mp ha with h | h
    · rw [h]
      exact Nat.le_max_left _ _
    · exact Nat.le_trans (ih h) (Nat.le_max_right _ _)

theorem groupArity_attained (received : List (List JVal)) (hne : received ≠ []) :
    ∃ a ∈ received, a.length = groupArity received := by
  induction received with
  | nil => exact absurd rfl hne
  | cons b rest ih =>
    by_cases hb : groupArity rest ≤ b.length
    · refine ⟨b, List.mem_cons_self b rest, ?_⟩
      rw [groupArity_cons, Nat.max_eq_left hb]
    · have hne2 : rest ≠ [] := by
        intro h
        rw [h] at hb
        exact hb (Nat.zero_le _)
      rcases ih hne2 with ⟨a, ha, hlen⟩
      refine ⟨a, List.mem_cons_of_mem b ha, ?_⟩
      rw [hlen, groupArity_cons, Nat.max_eq_right (Nat.le_of_lt (Nat.lt_of_not_le hb))]

/-- C3: For every dynamic-array group in a step: if no handle was created
for the group the result is one row of arity 1 holding an explicit absent
value (never a zero-length result); otherwise the row width equals the
maximum number of arguments received by any index's handle, and indices
whose handles received fewer arguments have their trailing positions
filled with explicit absent markers, with no index ever omitted. -/
theorem dynamic_array_arity_reconciliation (argss : List (List JVal))
    (events : List (Nat × List JVal)) (hperm : events.Perm argss.enum) :
    (groupReceived argss.length events = argss) ∧
    (argss = [] → assembleGroup argss = [[JVal.absent]]) ∧
    (argss ≠ [] →
      (assembleGroup argss).length = argss.length ∧
      (∀ a ∈ argss, a.length ≤ groupArity argss) ∧
      (∃ a ∈ argss, a.length = groupArity argss) ∧
      (∀ i, ∀ h : i < argss.length,
        (assembleGroup argss)[i]? =
          some (argss.get ⟨i, h⟩ ++
            List.replicate (groupArity argss - (argss.get ⟨i, h⟩).length) JVal.absent) ∧
        (argss.get ⟨i, h⟩ ++
          List.replicate (groupArity argss - (argss.get ⟨i, h⟩).length) JVal.absent).length =
          groupArity argss)) := by
  refine ⟨?_, ?_, ?_⟩
  · rw [groupReceived, fill_perm_enum argss events hperm, List.map_map]
    simp [Function.comp_def]
  · intro h
    rw [h]
    rfl
  · intro hne
    have hempty : argss.isEmpty = false := by
      rcases argss with _ | _
      · exact absurd rfl hne
      · rfl
    refine ⟨?_, fun a ha => groupArity_le argss a ha, groupArity_attained argss hne, ?_⟩
    · rw [assembleGroup, hempty]
      simp
    · intro i h
      constructor
      · rw [assembleGroup, hempty]
        simp only [Bool.false_eq_true, if_false, List.getElem?_map,
          List.getElem?_eq_getElem h, Option.map_some]
        rfl
      · rw [List.length_append, List.length_replicate]
        have hle : (argss.get ⟨i, h⟩).length ≤ groupArity argss :=
          groupArity_le argss _ (List.get_mem argss i h)
        omega

/-- Witness for C3, mirroring the spec's example: index 0 receives one
argument and index 1 receives three, with the completions arriving out of
creation order; the received table still lists the argument lists in
creation order, and assembly pads index 0 to the reconciled width 3. -/
theorem dynamic_array_arity_reconciliation_witness :
    (([((1 : Nat), [JVal.num 6, JVal.num 7, JVal.num 8]), ((0 : Nat), [JVal.num 5])]).Perm
      ([[JVal.num 5], [JVal.num 6, JVal.num 7, JVal.num 8]] : List (List JVal)).enum) ∧
    groupReceived 2 [((1 : Nat), [JVal.num 6, JVal.num 7, JVal.num 8]), ((0 : Nat), [JVal.num 5])] =
      [[JVal.num 5], [JVal.num 6, JVal.num 7, JVal.num 8]] :=
  ⟨by decide,
    (dynamic_array_arity_reconciliation [[JVal.num 5], [JVal.num 6, JVal.num 7, JVal.num 8]]
      _ (by decide)).1⟩

/-- Modelled from the spec (sections 4.2, 4.6): completing a fixup handle.
A fixup "wraps a plain handle with a transform applied to a successful
value before storage"; the transform may itself run a nested sub-flow, so
its outcome is either the transformed value or an error (a synchronous
throw, or the nested sub-flow's failure).  A non-null error delivered to
the wrapped callback marks the branch failed exactly like a plain handle;
an error raised by the transform enters the same frame's ErrorSet. -/
def fixupComplete (f : Frame) (slot : Nat) (t : JVal → Except Err JVal)
    (c : Completion) : Frame :=
  match c with
  | .fail e => f.resolve slot (.fail e)
  | .ok v =>
    match t v with
    | .ok w => f.resolve slot (.ok w)
    | .error e => f.resolve slot (.fail e)

/-- C9: For every fixup handle, if the wrapped callback is invoked with a
non-null error as its first argument, the fixup transform function is
never invoked and the error is recorded as that branch's failure exactly
as for a plain handle.  The completion equals the plain-handle resolution
and is independent of the transform, which is therefore never consulted. -/
theorem fixup_error_short_circuits_transform (f : Frame) (slot : Nat)
    (t u : JVal → Except Err JVal) (e : Err) :
    fixupComplete f slot t (.fail e) = f.resolve slot (.fail e) ∧
    fixupComplete f slot t (.fail e) = fixupComplete f slot u (.fail e) :=
  ⟨rfl, rfl⟩

/-- Modelled from the spec (sections 2, 4.6): nested flows form a stack of
step frames — the current (innermost) frame followed by its ancestors —
while the invocation's outermost done callback is recorded once called. -/
structure World where
  frames : List Frame
  doneCalled : Option (Option Err × List JVal)

/-- Replaces the frame at one position of the stack, leaving every other
frame alone. -/
def modifyFrame (fs : List Frame) (i : Nat) (g : Frame → Frame) : List Frame :=
  match fs[i]? with
  | none => fs
  | some f => fs.set i (g f)

/-- Modelled from the spec (section 4.2): resolving a fixup handle inside
the frame that created it.  The wrapped completion is processed by
fixupComplete against that frame only, and the done callback is not
touched: "errors raised inside the transform enter the current frame's
ErrorSet, not any ancestor's". -/
def World.fixupResolve (w : World) (i slot : Nat) (t : JVal → Except Err JVal)
    (c : Completion) : World :=
  { w with frames := modifyFrame w.frames i (fun f => fixupComplete f slot t c) }

/-- C7: For every fixup handle, an error thrown by its transform function —
including one arising inside a nested sub-flow run by the transform — is
added to the ErrorSet of the frame that created the fixup handle, not to
any ancestor frame's ErrorSet and not directly to a caller-level done
callback. -/
theorem fixup_transform_error_to_current_frame (w : World) (i slot : Nat)
    (t : JVal → Except Err JVal) (v : JVal) (e : Err) (f : Frame)
    (hf : w.frames[i]? = some f) (ht : t v = Except.error e) :
    ((w.fixupResolve i slot t (.ok v)).frames[i]?.map Frame.errors =
      some (f.errors ++ [e])) ∧
    (∀ j, j ≠ i → (w.fixupResolve i slot t (.ok v)).frames[j]? = w.frames[j]?) ∧
    ((w.fixupResolve i slot t (.ok v)).doneCalled = w.doneCalled) := by
  have hlt : i < w.frames.length := by
    by_contra hge
    rw [List.getElem?_eq_none (Nat.le_of_not_lt hge)] at hf
    exact Option.noConfusion hf
  have hframes : (w.fixupResolve i slot t (.ok v)).frames =
      w.frames.set i (fixupComplete f slot t (.ok v)) := by
    rw [World.fixupResolve, modifyFrame, hf]
  refine ⟨?_, ?_, rfl⟩
  · rw [hframes, List.getElem?_set_self (by simpa using hlt)]
    have hfx : fixupComplete f slot t (.ok v) = f.resolve slot (.fail e) := by
      rw [fixupComplete, ht]
    rw [hfx]
    rfl
  · intro j hj
    rw [hframes, List.getElem?_set_ne (fun hij => hj hij.symm)]

/-- Witness for C7, mirroring the "inner error" fixup test: a nested flow
whose current frame owns one fixup handle; the transform throws, the error
lands in the current frame's ErrorSet, the ancestor frame is untouched and
done has not been called. -/
theorem fixup_transform_error_to_current_frame_witness :
    (({ frames := [Frame.init 1, Frame.init 0], doneCalled := none } : World).frames[0]? =
      some (Frame.init 1)) ∧
    ((fun _ : JVal => (Except.error ⟨none, "errored"⟩ : Except Err JVal)) (JVal.num 1) =
      Except.error ⟨none, "errored"⟩) ∧
    (((({ frames := [Frame.init 1, Frame.init 0], doneCalled := none } : World).fixupResolve
        0 0 (fun _ : JVal => (Except.error ⟨none, "errored"⟩ : Except Err JVal))
        (.ok (JVal.num 1))).frames[0]?.map Frame.errors =
      some ((Frame.init 1).errors ++ [⟨none, "errored"⟩])) ∧
    (∀ j, j ≠ 0 →
      ((({ frames := [Frame.init 1, Frame.init 0], doneCalled := none } : World).fixupResolve
        0 0 (fun _ : JVal => (Except.error ⟨none, "errored"⟩ : Except Err JVal))
        (.ok (JVal.num 1))).frames[j]? =
      ({ frames := [Frame.init 1, Frame.init 0], doneCalled := none } : World).frames[j]?)) ∧
    ((({ frames := [Frame.init 1, Frame.init 0], doneCalled := none } : World).fixupResolve
        0 0 (fun _ : JVal => (Except.error ⟨none, "errored"⟩ : Except Err JVal))
        (.ok (JVal.num 1))).doneCalled =
      ({ frames := [Frame.init 1, Frame.init 0], doneCalled := none } : World).doneCalled)) :=
  ⟨rfl, rfl,
    fixup_transform_error_to_current_frame
      { frames := [Frame.init 1, Frame.init 0], doneCalled := none } 0 0
      (fun _ : JVal => (Except.error ⟨none, "errored"⟩ : Except Err JVal))
      (JVal.num 1) ⟨none, "errored"⟩ (Frame.init 1) rfl rfl⟩

theorem enumFrom_map_pair (t : α → β) (vs : List α) (n : Nat) :
    (vs.enumFrom n).map (fun ev => (ev.1, t ev.2)) = (vs.map t).enumFrom n := by
  induction vs generalizing n with
  | nil => rfl
  | cons v rest ih => simp [List.enumFrom, ih]

/-- Modelled from the test t/cadence/fixup.t.js and spec section 4.2: the
slot table of a fixup array group.  Invoking the fixup builder with an
initial empty array and a transform returns a factory; the n-th factory
call creates the group handle bound to index n.  A completion event (i, v)
stores transform(v) at index i; events arrive in arbitrary order. -/
def fixupGroupSlots (n : Nat) (t : JVal → JVal) (events : List (Nat × JVal)) :
    List (Option JVal) :=
  fill (List.replicate n none) (events.map (fun ev => (ev.1, t ev.2)))

/-- Modelled from the spec: the argument list the next step receives from a
fixup array group once every handle has fired: a single array holding the
stored (transformed) values in creation order. -/
def fixupGroupNextArgs (n : Nat) (t : JVal → JVal) (events : List (Nat × JVal)) :
    List JVal :=
  [JVal.arr ((fixupGroupSlots n t events).map (fun o => o.getD JVal.absent))]

/-- C10: Invoking the fixup builder with an initial empty array and a
transform function returns a factory; every call to the factory creates
one group handle, and the next step receives a single array whose i-th
element is the transform applied to the value delivered to the i-th
created handle, ordered by handle creation order. -/
theorem fixup_array_factory_maps_in_creation_order (t : JVal → JVal) (vs : List JVal)
    (events : List (Nat × JVal)) (hperm : events.Perm vs.enum) :
    fixupGroupNextArgs vs.length t events = [JVal.arr (vs.map t)] := by
  have hperm2 : (events.map (fun ev => (ev.1, t ev.2))).Perm (vs.map t).enum := by
    have h1 := hperm.map (fun ev => (ev.1, t ev.2))
    have h2 : vs.enum.map (fun ev => (ev.1, t ev.2)) = (vs.map t).enum := by
      rw [List.enum_eq_enumFrom, List.enum_eq_enumFrom]
      exact enumFrom_map_pair t vs 0
    rw [h2] at h1
    exact h1
  have hfill : fixupGroupSlots vs.length t events = (vs.map t).map some := by
    rw [fixupGroupSlots]
    have hlen : vs.length = (vs.map t).length := (List.length_map vs t).symm
    rw [hlen]
    exact fill_perm_enum (vs.map t) _ hperm2
  rw [fixupGroupNextArgs, hfill, List.map_map]
  simp [Function.comp_def]

/-- Witness for C10, mirroring the "fixup array cadence" test: three
handles created for values 1, 2, 3; completions arrive out of creation
order; the next step receives the single array of negated values in
creation order. -/
theorem fixup_array_factory_maps_in_creation_order_witness :
    (([((2 : Nat), JVal.num 3), ((0 : Nat), JVal.num 1), ((1 : Nat), JVal.num 2)]).Perm
      ([JVal.num 1, JVal.num 2, JVal.num 3] : List JVal).enum) ∧
    fixupGroupNextArgs 3
        (fun v => match v with | JVal.num n => JVal.num (-n) | x => x)
        [((2 : Nat), JVal.num 3), ((0 : Nat), JVal.num 1), ((1 : Nat), JVal.num 2)] =
      [JVal.arr [JVal.num (-1), JVal.num (-2), JVal.num (-3)]] :=
  ⟨by decide,
    fixup_array_factory_maps_in_creation_order
      (fun v => match v with | JVal.num n => JVal.num (-n) | x => x)
      [JVal.num 1, JVal.num 2, JVal.num 3] _ (by decide)⟩

end Cadence
